/-
Verification of the network-simulator engine of `main.py`:
TCP Tahoe/Reno congestion control, node congestion bookkeeping,
Dijkstra shortest-path routing, BFS reachability, and the
packet-generation / statistics-tracking pipeline.

Numeric model: Python floats are modelled as rationals (ℚ); Python
`int()` truncation is modelled explicitly; `float('infinity')`
distances are modelled as `Option ℕ` with `none` standing for ∞.
-/
import Mathlib

/-! ## TCP congestion control (`TCPCongestionControl`, `TCPTahoe`, `TCPReno`) -/

/-- The three states of the congestion-control state machine. -/
inductive TCPState
  | slow_start
  | congestion_avoidance
  | fast_recovery
deriving DecidableEq

/-- State of a `TCPCongestionControl` object (fields of `__init__`). -/
structure TCPCC where
  cwnd : ℚ
  ssthresh : ℚ
  state : TCPState
  duplicate_acks : ℕ
  packets_sent : ℕ
  packets_acked : ℕ
deriving DecidableEq

/-- The initial state set in `TCPCongestionControl.__init__`. -/
def TCPCC.init : TCPCC :=
  { cwnd := 1, ssthresh := 64, state := .slow_start
    duplicate_acks := 0, packets_sent := 0, packets_acked := 0 }

/-- `TCPTahoe.on_ack_received`: bump `packets_acked`, clear duplicate count,
then grow the window according to the current state (the `ssthresh`
comparison in slow start reads the already incremented `cwnd`). -/
def TCPTahoe.on_ack_received (c : TCPCC) : TCPCC :=
  match c.state with
  | .slow_start =>
      if c.ssthresh ≤ c.cwnd + 1 then
        { c with packets_acked := c.packets_acked + 1, duplicate_acks := 0,
                 cwnd := c.cwnd + 1, state := .congestion_avoidance }
      else
        { c with packets_acked := c.packets_acked + 1, duplicate_acks := 0,
                 cwnd := c.cwnd + 1 }
  | .congestion_avoidance =>
      { c with packets_acked := c.packets_acked + 1, duplicate_acks := 0,
               cwnd := c.cwnd + 1 / c.cwnd }
  | .fast_recovery =>
      { c with packets_acked := c.packets_acked + 1, duplicate_acks := 0 }

/-- `TCPTahoe.on_timeout`. -/
def TCPTahoe.on_timeout (c : TCPCC) : TCPCC :=
  { c with ssthresh := max (c.cwnd / 2) 2, cwnd := 1, state := .slow_start,
           duplicate_acks := 0 }

/-- `TCPTahoe.on_duplicate_ack`: three duplicate ACKs are treated like a
timeout (the threshold test reads the already incremented counter). -/
def TCPTahoe.on_duplicate_ack (c : TCPCC) : TCPCC :=
  if 3 ≤ c.duplicate_acks + 1 then
    TCPTahoe.on_timeout { c with duplicate_acks := c.duplicate_acks + 1 }
  else
    { c with duplicate_acks := c.duplicate_acks + 1 }

/-- `TCPReno.on_ack_received`. -/
def TCPReno.on_ack_received (c : TCPCC) : TCPCC :=
  match c.state with
  | .slow_start =>
      if c.ssthresh ≤ c.cwnd + 1 then
        { c with packets_acked := c.packets_acked + 1, duplicate_acks := 0,
                 cwnd := c.cwnd + 1, state := .congestion_avoidance }
      else
        { c with packets_acked := c.packets_acked + 1, duplicate_acks := 0,
                 cwnd := c.cwnd + 1 }
  | .congestion_avoidance =>
      { c with packets_acked := c.packets_acked + 1, duplicate_acks := 0,
               cwnd := c.cwnd + 1 / c.cwnd }
  | .fast_recovery =>
      { c with packets_acked := c.packets_acked + 1, duplicate_acks := 0,
               cwnd := c.ssthresh, state := .congestion_avoidance }

/-- `TCPReno.on_timeout` (identical to Tahoe's). -/
def TCPReno.on_timeout (c : TCPCC) : TCPCC :=
  { c with ssthresh := max (c.cwnd / 2) 2, cwnd := 1, state := .slow_start,
           duplicate_acks := 0 }

/-- `TCPReno.on_duplicate_ack`: fast retransmit at exactly 3 duplicates,
window inflation while already in fast recovery. -/
def TCPReno.on_duplicate_ack (c : TCPCC) : TCPCC :=
  if c.duplicate_acks + 1 = 3 then
    { c with duplicate_acks := c.duplicate_acks + 1,
             ssthresh := max (c.cwnd / 2) 2,
             cwnd := max (c.cwnd / 2) 2 + 3,
             state := .fast_recovery }
  else if c.state = .fast_recovery then
    { c with duplicate_acks := c.duplicate_acks + 1, cwnd := c.cwnd + 1 }
  else
    { c with duplicate_acks := c.duplicate_acks + 1 }

/-- Python `int()` truncation toward zero, on rationals. -/
def ratTruncate (q : ℚ) : ℤ := if q < 0 then -⌊-q⌋ else ⌊q⌋

/-- `TCPCongestionControl.get_window_size`: `max(1, int(self.cwnd))`. -/
def TCPCC.get_window_size (c : TCPCC) : ℤ := max 1 (ratTruncate c.cwnd)

/-- Events driving the congestion-control state machine. -/
inductive TCPEvent
  | ack
  | dupAck
  | timeout

/-- One Tahoe transition. -/
def tahoeStep (c : TCPCC) : TCPEvent → TCPCC
  | .ack => TCPTahoe.on_ack_received c
  | .dupAck => TCPTahoe.on_duplicate_ack c
  | .timeout => TCPTahoe.on_timeout c

/-- One Reno transition. -/
def renoStep (c : TCPCC) : TCPEvent → TCPCC
  | .ack => TCPReno.on_ack_received c
  | .dupAck => TCPReno.on_duplicate_ack c
  | .timeout => TCPReno.on_timeout c

/-- Run Tahoe from the initial state over a sequence of events. -/
def tahoeRun (es : List TCPEvent) : TCPCC := es.foldl tahoeStep TCPCC.init

/-- Run Reno from the initial state over a sequence of events. -/
def renoRun (es : List TCPEvent) : TCPCC := es.foldl renoStep TCPCC.init

/-- The window invariant: `cwnd ≥ 1` and `ssthresh ≥ 2`. -/
def CCInv (c : TCPCC) : Prop := 1 ≤ c.cwnd ∧ 2 ≤ c.ssthresh

theorem ccinv_init : CCInv TCPCC.init := by
  constructor <;> norm_num [TCPCC.init]

theorem ccinv_timeout {c : TCPCC} : CCInv (TCPTahoe.on_timeout c) :=
  ⟨le_refl 1, le_max_right (c.cwnd / 2) 2⟩

theorem cwnd_grow {c : TCPCC} (h1 : 1 ≤ c.cwnd) : (1:ℚ) ≤ c.cwnd + 1 / c.cwnd := by
  have hpos : (0:ℚ) < c.cwnd := by linarith
  have h0 : (0:ℚ) ≤ 1 / c.cwnd := by positivity
  linarith

theorem ccinv_tahoe_ack {c : TCPCC} (h : CCInv c) : CCInv (TCPTahoe.on_ack_received c) := by
  obtain ⟨cw, ss, st, da, ps, pa⟩ := c
  obtain ⟨h1, h2⟩ := h
  replace h1 : (1:ℚ) ≤ cw := h1
  replace h2 : (2:ℚ) ≤ ss := h2
  cases st <;> simp only [TCPTahoe.on_ack_received]
  · split
    · exact ⟨show (1:ℚ) ≤ cw + 1 by linarith, h2⟩
    · exact ⟨show (1:ℚ) ≤ cw + 1 by linarith, h2⟩
  · exact ⟨show (1:ℚ) ≤ cw + 1 / cw from cwnd_grow (c := ⟨cw, ss, .slow_start, da, ps, pa⟩) h1, h2⟩
  · exact ⟨h1, h2⟩

theorem ccinv_tahoe_dup {c : TCPCC} (h : CCInv c) : CCInv (TCPTahoe.on_duplicate_ack c) := by
  obtain ⟨cw, ss, st, da, ps, pa⟩ := c
  obtain ⟨h1, h2⟩ := h
  simp only [TCPTahoe.on_duplicate_ack]
  split
  · exact ccinv_timeout
  · exact ⟨h1, h2⟩

theorem ccinv_reno_ack {c : TCPCC} (h : CCInv c) : CCInv (TCPReno.on_ack_received c) := by
  obtain ⟨cw, ss, st, da, ps, pa⟩ := c
  obtain ⟨h1, h2⟩ := h
  replace h1 : (1:ℚ) ≤ cw := h1
  replace h2 : (2:ℚ) ≤ ss := h2
  cases st <;> simp only [TCPReno.on_ack_received]
  · split
    · exact ⟨show (1:ℚ) ≤ cw + 1 by linarith, h2⟩
    · exact ⟨show (1:ℚ) ≤ cw + 1 by linarith, h2⟩
  · exact ⟨show (1:ℚ) ≤ cw + 1 / cw from cwnd_grow (c := ⟨cw, ss, .slow_start, da, ps, pa⟩) h1, h2⟩
  · exact ⟨show (1:ℚ) ≤ ss by linarith, h2⟩

theorem ccinv_reno_dup {c : TCPCC} (h : CCInv c) : CCInv (TCPReno.on_duplicate_ack c) := by
  obtain ⟨cw, ss, st, da, ps, pa⟩ := c
  obtain ⟨h1, h2⟩ := h
  replace h1 : (1:ℚ) ≤ cw := h1
  replace h2 : (2:ℚ) ≤ ss := h2
  simp only [TCPReno.on_duplicate_ack]
  split
  · have hm : (2:ℚ) ≤ max (cw / 2) 2 := le_max_right _ _
    exact ⟨show (1:ℚ) ≤ max (cw / 2) 2 + 3 by linarith, hm⟩
  · split
    · exact ⟨show (1:ℚ) ≤ cw + 1 by linarith, h2⟩
    · exact ⟨h1, h2⟩

theorem ccinv_tahoeStep {c : TCPCC} (h : CCInv c) (e : TCPEvent) : CCInv (tahoeStep c e) := by
  cases e
  · exact ccinv_tahoe_ack h
  · exact ccinv_tahoe_dup h
  · exact ccinv_timeout

theorem ccinv_renoStep {c : TCPCC} (h : CCInv c) (e : TCPEvent) : CCInv (renoStep c e) := by
  cases e
  · exact ccinv_reno_ack h
  · exact ccinv_reno_dup h
  · exact ccinv_timeout

theorem ccinv_foldl {step : TCPCC → TCPEvent → TCPCC}
    (hstep : ∀ c e, CCInv c → CCInv (step c e)) :
    ∀ (es : List TCPEvent) (c : TCPCC), CCInv c → CCInv (es.foldl step c) := by
  intro es
  induction es with
  | nil => intro c h; simpa using h
  | cons e es ih => intro c h; exact ih _ (hstep c e h)

/-- C4: for both Tahoe and Reno, from the initial state
`{cwnd=1, ssthresh=64, state=slow_start, duplicate_acks=0}`, every finite
sequence of ACK / duplicate-ACK / timeout events keeps `cwnd ≥ 1` and
`ssthresh ≥ 2`. -/
theorem tcp_window_invariant (es : List TCPEvent) :
    (1 ≤ (tahoeRun es).cwnd ∧ 2 ≤ (tahoeRun es).ssthresh) ∧
    (1 ≤ (renoRun es).cwnd ∧ 2 ≤ (renoRun es).ssthresh) :=
  ⟨ccinv_foldl (fun _ e h => ccinv_tahoeStep h e) es TCPCC.init ccinv_init,
   ccinv_foldl (fun _ e h => ccinv_renoStep h e) es TCPCC.init ccinv_init⟩

/-! ## Window size (C5) and the Reno fast-retransmit scenario (C6) -/

theorem ratTruncate_eq_floor {q : ℚ} (h : 0 ≤ q) : ratTruncate q = ⌊q⌋ := by
  unfold ratTruncate
  rw [if_neg (not_lt.mpr h)]

theorem ratTruncate_le_one {q : ℚ} (h : q < 1) : ratTruncate q ≤ 1 := by
  unfold ratTruncate
  split
  · have h0 : (0:ℚ) ≤ -q := by linarith
    have h1 : (0:ℤ) ≤ ⌊-q⌋ := Int.floor_nonneg.mpr h0
    omega
  · have h1 : ⌊q⌋ < 1 := by
      rw [Int.floor_lt]
      exact_mod_cast h
    omega

/-- C5: for every congestion-control state (any rational `cwnd`),
`get_window_size` is an integer at least 1 and equals `⌊max 1 cwnd⌋`. -/
theorem get_window_size_spec (c : TCPCC) :
    1 ≤ c.get_window_size ∧ c.get_window_size = ⌊max (1:ℚ) c.cwnd⌋ := by
  refine ⟨le_max_left _ _, ?_⟩
  unfold TCPCC.get_window_size
  rcases le_or_lt 1 c.cwnd with h1 | h1
  · rw [max_eq_right h1, ratTruncate_eq_floor (by linarith)]
    have hfl : (1:ℤ) ≤ ⌊c.cwnd⌋ := by
      rw [Int.le_floor]; exact_mod_cast h1
    rw [max_eq_right hfl]
  · rw [max_eq_left (le_of_lt h1), max_eq_left (ratTruncate_le_one h1), Int.floor_one]

/-- The state of a Reno controller that starts at `cwnd=20`, `ssthresh=2`,
`duplicate_acks=0` in machine state `st` and receives three consecutive
duplicate ACKs. -/
def renoDup3 (st : TCPState) : TCPCC :=
  TCPReno.on_duplicate_ack (TCPReno.on_duplicate_ack (TCPReno.on_duplicate_ack
    ⟨20, 2, st, 0, 0, 0⟩))

/-- C6: from `cwnd=20`, `ssthresh=2`, `duplicate_acks=0` in slow start or
congestion avoidance, three consecutive duplicate ACKs put TCP Reno in fast
recovery with `cwnd = max(20/2, 2) + 3 = 13` and `ssthresh = 10`. -/
theorem reno_three_dup_acks :
    (renoDup3 .slow_start).state = TCPState.fast_recovery ∧
    (renoDup3 .slow_start).cwnd = 13 ∧
    (renoDup3 .slow_start).ssthresh = 10 ∧
    (renoDup3 .congestion_avoidance).state = TCPState.fast_recovery ∧
    (renoDup3 .congestion_avoidance).cwnd = 13 ∧
    (renoDup3 .congestion_avoidance).ssthresh = 10 := by
  have hmax : max (20/2 : ℚ) 2 = 10 := by norm_num [max_def]
  have key : ∀ st : TCPState, st ≠ .fast_recovery →
      renoDup3 st = ⟨13, 10, .fast_recovery, 3, 0, 0⟩ := by
    intro st hst
    have e1 : TCPReno.on_duplicate_ack ⟨20, 2, st, 0, 0, 0⟩ = ⟨20, 2, st, 1, 0, 0⟩ := by
      simp [TCPReno.on_duplicate_ack, hst]
    have e2 : TCPReno.on_duplicate_ack ⟨20, 2, st, 1, 0, 0⟩ = ⟨20, 2, st, 2, 0, 0⟩ := by
      simp [TCPReno.on_duplicate_ack, hst]
    have e3 : TCPReno.on_duplicate_ack ⟨20, 2, st, 2, 0, 0⟩ =
        ⟨13, 10, .fast_recovery, 3, 0, 0⟩ := by
      simp only [TCPReno.on_duplicate_ack]
      norm_num [hmax]
    unfold renoDup3
    rw [e1, e2, e3]
  rw [key .slow_start (by intro h; exact TCPState.noConfusion h),
      key .congestion_avoidance (by intro h; exact TCPState.noConfusion h)]
  norm_num

/-! ## Node congestion bookkeeping (C7)

The five engine operations of `main.py` that modify a node's `congestion`
field: the loss-branch and success-branch increments of
`start_packet_generation`, the ACK decrement of `handle_packet_ack`, the
timeout increment of `check_timeouts`, and the periodic decrement of
`decay_congestion`. -/

/-- Traffic load setting (`self.traffic_load`). -/
inductive TrafficLoad
  | light
  | medium
  | heavy
deriving DecidableEq

/-- `congestion_factor` chosen in the packet-loss branch from the
congestion-control state. -/
def lossFactor : TCPState → ℚ
  | .slow_start => 1/2
  | .fast_recovery => 3/2
  | _ => 1

/-- Multiplier applied to `congestion_factor` in the success branch. -/
def loadMult : TrafficLoad → ℚ
  | .light => 1/2
  | .heavy => 2
  | .medium => 1

/-- Congestion decay rate of `decay_congestion`. -/
def decayRate : TrafficLoad → ℚ
  | .heavy => 1/10
  | _ => 1/5

/-- One engine operation on a node's congestion value, with the data the
code reads to size the increment or decrement. -/
inductive CongOp
  | lossInc (st : TCPState)
  | successInc (w : ℤ) (load : TrafficLoad)
  | ackDec
  | timeoutInc
  | decay (load : TrafficLoad)

/-- The effect of each operation on the congestion value, as written in
`start_packet_generation`, `handle_packet_ack`, `check_timeouts` and
`decay_congestion` (`w` is the source's `get_window_size()`). -/
def congStep (c : ℚ) : CongOp → ℚ
  | .lossInc st => min 10 (c + lossFactor st * (1/2))
  | .successInc w load => min 10 (c + (1 / (max 1 w : ℤ)) * loadMult load)
  | .ackDec => max 0 (c - 1/5)
  | .timeoutInc => min 10 (c + 2)
  | .decay load => if 0 < c then max 0 (c - decayRate load) else c

theorem lossFactor_nonneg (st : TCPState) : 0 ≤ lossFactor st := by
  cases st <;> norm_num [lossFactor]

theorem loadMult_nonneg (load : TrafficLoad) : 0 ≤ loadMult load := by
  cases load <;> norm_num [loadMult]

theorem congStep_mem {c : ℚ} (h0 : 0 ≤ c) (h10 : c ≤ 10) (op : CongOp) :
    0 ≤ congStep c op ∧ congStep c op ≤ 10 := by
  cases op with
  | lossInc st =>
      simp only [congStep]
      have hf := lossFactor_nonneg st
      exact ⟨le_min (by norm_num) (by nlinarith), min_le_left _ _⟩
  | successInc w load =>
      simp only [congStep]
      have hm := loadMult_nonneg load
      have hw : (0:ℚ) < ((max 1 w : ℤ) : ℚ) := by
        have h1w : (1:ℤ) ≤ max 1 w := le_max_left _ _
        exact_mod_cast lt_of_lt_of_le zero_lt_one h1w
      have hinv : (0:ℚ) ≤ 1 / ((max 1 w : ℤ) : ℚ) := by positivity
      exact ⟨le_min (by norm_num) (by nlinarith), min_le_left _ _⟩
  | ackDec =>
      simp only [congStep]
      exact ⟨le_max_left _ _, max_le (by norm_num) (by linarith)⟩
  | timeoutInc =>
      simp only [congStep]
      exact ⟨le_min (by norm_num) (by linarith), min_le_left _ _⟩
  | decay load =>
      simp only [congStep]
      split
      · have hd : (0:ℚ) ≤ decayRate load := by cases load <;> norm_num [decayRate]
        exact ⟨le_max_left _ _, max_le (by norm_num) (by linarith)⟩
      · exact ⟨h0, h10⟩

/-- C7: starting from congestion `0`, every finite sequence of the engine's
congestion-modifying operations keeps a node's congestion inside `[0, 10]`. -/
theorem congestion_bounded (ops : List CongOp) :
    0 ≤ ops.foldl congStep 0 ∧ ops.foldl congStep 0 ≤ 10 := by
  suffices h : ∀ (ops : List CongOp) (c : ℚ), 0 ≤ c → c ≤ 10 →
      0 ≤ ops.foldl congStep c ∧ ops.foldl congStep c ≤ 10 by
    exact h ops 0 (le_refl 0) (by norm_num)
  intro ops
  induction ops with
  | nil => intro c h0 h10; exact ⟨h0, h10⟩
  | cons op ops ih =>
      intro c h0 h10
      obtain ⟨g0, g10⟩ := congStep_mem h0 h10 op
      exact ih _ g0 g10

/-! ## Topology and routing

Nodes are identified by natural-number ids. `nodes` models `self.nodes`,
`adj u` models `u.connections`, `latency u` models `u.latency`
(`random.randint(5, 50)`, an integer). Python's `float('infinity')`
distances are `Option ℕ` values with `none` for ∞. -/

/-- The topology data read by the router. -/
structure Network where
  nodes : List ℕ
  adj : ℕ → List ℕ
  latency : ℕ → ℕ

/-- A network is wellformed when neighbor lists stay inside the node list
(connections are only ever created between added nodes) and the node list
has no duplicates (each `NetworkNode` object is distinct). -/
def Wellformed (g : Network) : Prop :=
  (∀ u ∈ g.nodes, ∀ v ∈ g.adj u, v ∈ g.nodes) ∧ g.nodes.Nodup

instance (g : Network) : Decidable (Wellformed g) := by
  unfold Wellformed; infer_instance

/-- A valid path from `a` to `b`: nonempty, starts at `a`, ends at `b`,
and consecutive nodes are linked in the topology. -/
def validPath (g : Network) (a b : ℕ) (p : List ℕ) : Prop :=
  p.head? = some a ∧ p.getLast? = some b ∧ p.Chain' (fun u v => v ∈ g.adj u)

instance (g : Network) (a b : ℕ) (p : List ℕ) : Decidable (validPath g a b p) := by
  unfold validPath; infer_instance

/-- Cost of a path under the leave-node model: the sum of `latency` over
all nodes except the last (each edge `u → v` costs `latency u`). -/
def pathCost (g : Network) (p : List ℕ) : ℕ := (p.dropLast.map g.latency).sum

/-- `b` is reachable from `a` along topology links. -/
def Reachable (g : Network) (a b : ℕ) : Prop := ∃ p, validPath g a b p

/-- Strict comparison of optional distances, `none` playing ∞
(the comparison Python's `min(unvisited, key=...)` performs on
`float` distances). -/
def distLt : Option ℕ → Option ℕ → Bool
  | some x, some y => x < y
  | some _, none => true
  | none, _ => false

/-- `min(unvisited, key=lambda node: distances[node])`: first element with
minimal distance, scanning `best` then `xs`. -/
def argminD (dist : ℕ → Option ℕ) : List ℕ → ℕ → ℕ
  | [], best => best
  | x :: xs, best => argminD dist xs (if distLt (dist x) (dist best) then x else best)

/-- Path reconstruction: `while current: path.append(current);
current = previous[current]`, with enough fuel for the `previous` chain. -/
def follow (prev : ℕ → Option ℕ) : ℕ → ℕ → List ℕ
  | 0, v => [v]
  | fuel + 1, v =>
      match prev v with
      | none => [v]
      | some u => v :: follow prev fuel u

/-- One relaxation: `alt = distances[current] + current.latency;
if alt < distances[neighbor]: update distance and predecessor`, guarded by
`neighbor in unvisited`. -/
def relaxOne (g : Network) (unvisited : List ℕ) (current : ℕ)
    (dp : (ℕ → Option ℕ) × (ℕ → Option ℕ)) (nb : ℕ) :
    (ℕ → Option ℕ) × (ℕ → Option ℕ) :=
  if nb ∈ unvisited then
    match dp.1 current with
    | none => dp
    | some dc =>
        if distLt (some (dc + g.latency current)) (dp.1 nb) then
          (fun n => if n = nb then some (dc + g.latency current) else dp.1 n,
           fun n => if n = nb then some current else dp.2 n)
        else dp
  else dp

/-- Relax every neighbor of `current` in order. -/
def relax (g : Network) (unvisited : List ℕ) (current : ℕ)
    (dp : (ℕ → Option ℕ) × (ℕ → Option ℕ)) : (ℕ → Option ℕ) × (ℕ → Option ℕ) :=
  (g.adj current).foldl (relaxOne g unvisited current) dp

/-- The `while unvisited:` loop of `dijkstra_shortest_path`, fuelled (each
iteration removes the selected node, so `|unvisited| + 1` fuel suffices). -/
def dijkstraLoop (g : Network) (dest : ℕ) :
    ℕ → (ℕ → Option ℕ) → (ℕ → Option ℕ) → List ℕ → Option (List ℕ × ℕ)
  | 0, _, _, _ => none
  | _ + 1, _, _, [] => none
  | fuel + 1, dist, prev, x :: xs =>
      let current := argminD dist xs x
      match dist current with
      | none => none
      | some d =>
          if current = dest then
            some ((follow prev g.nodes.length dest).reverse, d)
          else
            let rest := (x :: xs).erase current
            let dp := relax g rest current (dist, prev)
            dijkstraLoop g dest fuel dp.1 dp.2 rest

/-- `dijkstra_shortest_path(source, destination)`: distances start at ∞
except `distances[source] = 0`, predecessors at `None`, unvisited is the
node set; `none` models the `return None, float('infinity')` outcome. -/
def dijkstra_shortest_path (g : Network) (source dest : ℕ) : Option (List ℕ × ℕ) :=
  dijkstraLoop g dest (g.nodes.length + 1)
    (fun n => if n = source then some 0 else none) (fun _ => none) g.nodes

/-- The BFS loop of `find_path`, fuelled: a `(node, path)` entry is popped
per iteration, and entries are enqueued only on first visits. -/
def bfsLoop (g : Network) (dest : ℕ) :
    ℕ → List (ℕ × List ℕ) → List ℕ → Option (List ℕ)
  | 0, _, _ => none
  | _ + 1, [], _ => none
  | fuel + 1, (node, path) :: rest, visited =>
      if node = dest then some path
      else if node ∈ visited then bfsLoop g dest fuel rest visited
      else bfsLoop g dest fuel
        (rest ++ ((g.adj node).filter (fun nb => decide (nb ∉ node :: visited))).map
          (fun nb => (nb, path ++ [nb])))
        (node :: visited)

/-- Fuel sufficient for the BFS: one initial entry plus at most one entry
per adjacency-list slot of each node. -/
def bfsFuel (g : Network) : ℕ := 1 + (g.nodes.map (fun u => (g.adj u).length)).sum

/-- `find_path(source, destination)`: BFS from `source`. -/
def find_path (g : Network) (source dest : ℕ) : Option (List ℕ) :=
  bfsLoop g dest (bfsFuel g) [(source, [source])] []

/-! ## Basic facts about the selection and reconstruction helpers -/

theorem distLt_irrefl (o : Option ℕ) : distLt o o = false := by
  cases o <;> simp [distLt]

theorem distLt_trans_false {a b c : Option ℕ} (h1 : distLt a b = false)
    (h2 : distLt b c = false) : distLt a c = false := by
  cases a <;> cases b <;> cases c <;> simp_all [distLt] <;> omega

theorem distLt_asymm {a b : Option ℕ} (h : distLt a b = true) : distLt b a = false := by
  cases a <;> cases b <;> simp_all [distLt] <;> omega

theorem argminD_mem (dist : ℕ → Option ℕ) :
    ∀ (xs : List ℕ) (best : ℕ), argminD dist xs best ∈ best :: xs := by
  intro xs
  induction xs with
  | nil => intro best; simp [argminD]
  | cons x xs ih =>
      intro best
      simp only [argminD]
      rcases List.mem_cons.mp (ih (if distLt (dist x) (dist best) then x else best)) with h1 | h1
      · rw [h1]
        split
        · exact List.mem_cons_of_mem _ (List.mem_cons_self _ _)
        · exact List.mem_cons_self _ _
      · exact List.mem_cons_of_mem _ (List.mem_cons_of_mem _ h1)

theorem argminD_min (dist : ℕ → Option ℕ) :
    ∀ (xs : List ℕ) (best : ℕ), ∀ y ∈ best :: xs,
      distLt (dist y) (dist (argminD dist xs best)) = false := by
  intro xs
  induction xs with
  | nil =>
      intro best y hy
      rcases List.mem_cons.mp hy with h | h
      · subst h; exact distLt_irrefl _
      · simp at h
  | cons x xs ih =>
      intro best y hy
      simp only [argminD]
      have hbest : distLt (dist best)
          (dist (if distLt (dist x) (dist best) then x else best)) = false := by
        split
        · next hc => exact distLt_asymm hc
        · exact distLt_irrefl _
      have hx : distLt (dist x)
          (dist (if distLt (dist x) (dist best) then x else best)) = false := by
        split
        · exact distLt_irrefl _
        · next hc => simpa using hc
      have hrec := ih (if distLt (dist x) (dist best) then x else best)
      have hmid := hrec _ (List.mem_cons_self _ _)
      rcases List.mem_cons.mp hy with h | h
      · subst h; exact distLt_trans_false hbest hmid
      · rcases List.mem_cons.mp h with h' | h'
        · subst h'; exact distLt_trans_false hx hmid
        · exact hrec _ (List.mem_cons_of_mem _ h')

theorem argminD_none (dist : ℕ → Option ℕ) {xs : List ℕ} {best : ℕ}
    (h : dist (argminD dist xs best) = none) :
    ∀ y ∈ best :: xs, dist y = none := by
  intro y hy
  have := argminD_min dist xs best y hy
  rw [h] at this
  cases hv : dist y with
  | none => rfl
  | some d => rw [hv] at this; simp [distLt] at this

theorem follow_of_prev_none {prev : ℕ → Option ℕ} {v : ℕ} (h : prev v = none) :
    ∀ fuel, follow prev fuel v = [v] := by
  intro fuel
  cases fuel with
  | zero => rfl
  | succ n => simp [follow, h]

/-! ## C10: the router on a request with equal source and destination -/

theorem argminD_indicator (a : ℕ) (dist : ℕ → Option ℕ)
    (hdist : ∀ n, dist n = if n = a then some 0 else none) :
    ∀ (xs : List ℕ) (best : ℕ), best = a ∨ a ∈ xs → argminD dist xs best = a := by
  intro xs
  induction xs with
  | nil =>
      intro best h
      rcases h with h | h
      · simpa [argminD] using h
      · simp at h
  | cons x xs ih =>
      intro best h
      simp only [argminD]
      by_cases hb : best = a
      · subst hb
        have hcond : distLt (dist x) (dist best) = false := by
          rw [hdist best, if_pos rfl]
          by_cases hx : x = best
          · rw [hdist x, if_pos hx]; simp [distLt]
          · rw [hdist x, if_neg hx]; simp [distLt]
        rw [hcond]
        simp only [Bool.false_eq_true, if_false]
        exact ih best (Or.inl rfl)
      · rcases h with h | h
        · exact absurd h hb
        · rcases List.mem_cons.mp h with h' | h'
          · subst h'
            have hcond : distLt (dist a) (dist best) = true := by
              rw [hdist a, if_pos rfl, hdist best, if_neg hb]
              simp [distLt]
            rw [hcond]
            simp only [if_true]
            exact ih a (Or.inl rfl)
          · split
            · exact ih x (Or.inr h')
            · exact ih best (Or.inr h')

/-- C10: for every node `a` of the topology, `dijkstra_shortest_path(a, a)`
returns the one-node path `([a], 0)` rather than `None`. -/
theorem dijkstra_self (g : Network) (a : ℕ) (ha : a ∈ g.nodes) :
    dijkstra_shortest_path g a a = some ([a], 0) := by
  unfold dijkstra_shortest_path
  obtain ⟨x, xs, hx⟩ : ∃ x xs, g.nodes = x :: xs := by
    cases hn : g.nodes with
    | nil => rw [hn] at ha; simp at ha
    | cons x xs => exact ⟨x, xs, rfl⟩
  rw [hx]
  simp only [dijkstraLoop]
  have hind : ∀ n, (fun n => if n = a then some (0:ℕ) else none) n =
      if n = a then some 0 else none := fun n => rfl
  have harg : argminD (fun n => if n = a then some (0:ℕ) else none) xs x = a := by
    apply argminD_indicator a _ hind
    rw [hx] at ha
    rcases List.mem_cons.mp ha with h | h
    · exact Or.inl h.symm
    · exact Or.inr h
  rw [harg]
  simp only [if_pos rfl]
  rw [follow_of_prev_none rfl]
  simp

/-! ## C9: the interactive connect action (`on_canvas_click`) -/

/-- Topology-builder state touched by `on_canvas_click` in connection mode:
per-node `connections` lists, the global `self.connections` pair list, and
`self.selected_node`. -/
structure TopoState where
  adj : ℕ → List ℕ
  connections : List (ℕ × ℕ)
  selected : Option ℕ

/-- One canvas click on node `clicked` while in connection mode: select it
if nothing is selected; otherwise, for a different node, link the two — but
only when `clicked_node not in self.selected_node.connections`. -/
def on_canvas_click (t : TopoState) (clicked : ℕ) : TopoState :=
  match t.selected with
  | none => { t with selected := some clicked }
  | some sel =>
      if sel = clicked then t
      else if clicked ∈ t.adj sel then { t with selected := none }
      else
        { adj := fun n =>
            if n = sel then t.adj sel ++ [clicked]
            else if n = clicked then t.adj clicked ++ [sel]
            else t.adj n,
          connections := t.connections ++ [(sel, clicked)],
          selected := none }

/-- The empty builder state. -/
def topoEmpty : TopoState := { adj := fun _ => [], connections := [], selected := none }

/-- Clicking node 0 then node 1, twice, from the empty state. -/
def connectTwice01 : TopoState :=
  on_canvas_click (on_canvas_click (on_canvas_click (on_canvas_click topoEmpty 0) 1) 0) 1

/-- Counterexample to C9: issuing the connect action twice for the pair
`(0, 1)` does NOT produce a duplicate link — the pair list holds a single
`(0, 1)` entry and each adjacency list a single neighbor, because the
second connect is rejected by the membership check. -/
theorem connect_twice_counterexample :
    connectTwice01.connections = [(0, 1)] ∧
    connectTwice01.adj 0 = [1] ∧ connectTwice01.adj 1 = [0] ∧
    ¬ connectTwice01.connections.count (0, 1) = 2 := by
  refine ⟨?_, ?_, ?_, ?_⟩ <;> decide

/-- C9 (amended): issuing the interactive connect action (two clicks) twice
for the same pair from an unselected state leaves the topology exactly as
after the first connect — the second connect is rejected, so no duplicate
link appears. -/
theorem connect_twice_idempotent (t : TopoState) (a b : ℕ) (hsel : t.selected = none) :
    on_canvas_click (on_canvas_click (on_canvas_click (on_canvas_click t a) b) a) b =
      on_canvas_click (on_canvas_click t a) b := by
  obtain ⟨adj, conns, sel⟩ := t
  simp only at hsel
  subst hsel
  by_cases hab : a = b
  · subst hab
    simp [on_canvas_click]
  · simp only [on_canvas_click, if_neg hab]
    by_cases hmem : b ∈ adj a
    · simp [on_canvas_click, if_neg hab, hmem]
    · simp only [if_neg hmem]
      have hmem2 : b ∈ (fun n =>
          if n = a then adj a ++ [b] else if n = b then adj b ++ [a] else adj n) a := by
        simp
      simp [on_canvas_click, if_neg hab, hmem2]

/-- The connect action twice for `(0,1)` from empty discharges the
hypotheses of the amended C9 theorem at a concrete input. -/
theorem connect_twice_idempotent_witness :
    topoEmpty.selected = none ∧
    on_canvas_click (on_canvas_click (on_canvas_click (on_canvas_click topoEmpty 0) 1) 0) 1 =
      on_canvas_click (on_canvas_click topoEmpty 0) 1 :=
  ⟨rfl, connect_twice_idempotent topoEmpty 0 1 rfl⟩

/-! ## C8: one Generate attempt always records the attempt

Models lines 877–924 of `start_packet_generation` (the part guarded by the
window check and `if path:`), with the random loss draws injected as a
stream of rationals. Scheduling of the delayed ACK (`root.after`) and the
UI-only `packet_loss_probability` write are outside the recorded state. -/

/-- Performance and routing statistics (`latency_history`, `time_stamps`,
`throughput_history` and `self.routing_stats`); `routing_min_hops` starts
at `float('inf')`, modelled by `⊤`. -/
structure PerfState where
  time_stamps : List ℚ
  latency_history : List ℕ
  throughput_history : List ℚ
  routing_total_packets : ℕ
  routing_avg_hop_count : ℚ
  routing_min_hops : WithTop ℕ
  routing_max_hops : ℕ
  routing_path_history : List (ℕ × ℕ × ℚ)

/-- `track_performance(latency, hops)` at current relative time `tnow`. -/
def track_performance (tnow : ℚ) (latency : ℕ) (hops : ℕ) (s : PerfState) : PerfState :=
  let ts := s.time_stamps ++ [tnow]
  let lh := s.latency_history ++ [latency]
  let th :=
    match s.time_stamps.getLast? with
    | some prevt =>
        if 0 < tnow - prevt then
          s.throughput_history ++ [(1500 * 8) / ((tnow - prevt) * 1000000)]
        else
          s.throughput_history ++ [s.throughput_history.getLastD 0]
    | none => s.throughput_history ++ [0]
  let total := s.routing_total_packets + 1
  let hop_count := hops - 1
  let mn := if (hop_count : WithTop ℕ) < s.routing_min_hops
            then (hop_count : WithTop ℕ) else s.routing_min_hops
  let mx := if s.routing_max_hops < hop_count then hop_count else s.routing_max_hops
  let avg := (s.routing_avg_hop_count * ((total : ℚ) - 1) + hop_count) / (total : ℚ)
  let ph0 := s.routing_path_history ++ [(hop_count, latency, tnow)]
  let ph := if 100 < ph0.length then ph0.tail else ph0
  { time_stamps := if 50 < ts.length then ts.tail else ts,
    latency_history := if 50 < ts.length then lh.tail else lh,
    throughput_history := if 50 < ts.length then th.tail else th,
    routing_total_packets := total,
    routing_avg_hop_count := avg,
    routing_min_hops := mn,
    routing_max_hops := mx,
    routing_path_history := ph }

/-- The chosen congestion-control algorithm. -/
inductive CCAlg
  | tahoe
  | reno

/-- Dynamic dispatch of `source.tcp_control.on_duplicate_ack()`. -/
def onDupAck : CCAlg → TCPCC → TCPCC
  | .tahoe, c => TCPTahoe.on_duplicate_ack c
  | .reno, c => TCPReno.on_duplicate_ack c

/-- Per-node loss sampling along the path, in path order, one random draw
per inspected node: loss when `random() < min(0.3, congestion * 0.03)`,
and the first loss aborts the scan. -/
def sampleLoss (cong : ℕ → ℚ) (rands : ℕ → ℚ) : List ℕ → ℕ → Bool
  | [], _ => false
  | n :: ns, i =>
      if rands i < min (3/10) (cong n * (3/100)) then true
      else sampleLoss cong rands ns (i + 1)

/-- Raise every path node's congestion by `amount`, clamped to 10. -/
def raiseCongestion (amount : ℚ) (path : List ℕ) (cong : ℕ → ℚ) : ℕ → ℚ :=
  path.foldl (fun f n => fun m => if m = n then min 10 (f n + amount) else f m) cong

/-- Engine state read and written by one Generate attempt. -/
structure SimState where
  congestion : ℕ → ℚ
  packets_in_flight : ℕ → ℕ
  tcp : ℕ → TCPCC
  packets : List (ℕ × ℕ × List ℕ × ℕ)
  perf : PerfState

/-- One Generate attempt for a chosen `(source, dest)` pair: window check,
routing, loss sampling, then the loss branch (duplicate-ACK plus
state-dependent congestion bump) or the success branch (packet creation,
in-flight and `packets_sent` bumps, window-and-load-dependent congestion
bump), and finally the unconditional `track_performance` call. -/
def generateAttempt (g : Network) (load : TrafficLoad) (alg : CCAlg) (tnow : ℚ)
    (rands : ℕ → ℚ) (st : SimState) (source dest : ℕ) : SimState :=
  if (st.packets_in_flight source : ℤ) < (st.tcp source).get_window_size then
    match dijkstra_shortest_path g source dest with
    | none => st
    | some (path, total_latency) =>
        if path = [] then st
        else
          let st1 :=
            if sampleLoss st.congestion rands path 0 then
              let tcp' := onDupAck alg (st.tcp source)
              let factor : ℚ :=
                if tcp'.state = .slow_start then 1/2
                else if tcp'.state = .fast_recovery then 3/2
                else 1
              { st with tcp := fun n => if n = source then tcp' else st.tcp n,
                        congestion := raiseCongestion (factor * (1/2)) path st.congestion }
            else
              let w := (st.tcp source).get_window_size
              let factor : ℚ := (1 / (max 1 w : ℤ)) * loadMult load
              { st with
                  packets := st.packets ++ [(source, dest, path, total_latency)],
                  packets_in_flight := fun n =>
                    if n = source then st.packets_in_flight n + 1 else st.packets_in_flight n,
                  tcp := fun n =>
                    if n = source then
                      { st.tcp source with packets_sent := (st.tcp source).packets_sent + 1 }
                    else st.tcp n,
                  congestion := raiseCongestion factor path st.congestion }
          { st1 with perf := track_performance tnow total_latency path.length st1.perf }
  else st

theorem follow_ne_nil (prev : ℕ → Option ℕ) (fuel v : ℕ) : follow prev fuel v ≠ [] := by
  cases fuel with
  | zero => simp [follow]
  | succ n =>
      simp only [follow]
      cases prev v <;> simp

theorem dijkstraLoop_some_ne_nil {g : Network} {dest : ℕ} :
    ∀ {fuel : ℕ} {dist prev : ℕ → Option ℕ} {S : List ℕ} {p : List ℕ} {d : ℕ},
      dijkstraLoop g dest fuel dist prev S = some (p, d) → p ≠ [] := by
  intro fuel
  induction fuel with
  | zero => intro dist prev S p d h; simp [dijkstraLoop] at h
  | succ n ih =>
      intro dist prev S p d h
      match S with
      | [] => simp [dijkstraLoop] at h
      | x :: xs =>
          simp only [dijkstraLoop] at h
          cases hval : dist (argminD dist xs x) with
          | none => rw [hval] at h; simp at h
          | some dc =>
              rw [hval] at h
              simp only at h
              split at h
              · have hp : p = (follow prev g.nodes.length dest).reverse := by
                  cases h; rfl
                rw [hp]
                simp [follow_ne_nil]
              · exact ih h

theorem dijkstra_some_ne_nil {g : Network} {a b : ℕ} {p : List ℕ} {d : ℕ}
    (h : dijkstra_shortest_path g a b = some (p, d)) : p ≠ [] :=
  dijkstraLoop_some_ne_nil h

theorem track_performance_total (tnow : ℚ) (latency hops : ℕ) (s : PerfState) :
    (track_performance tnow latency hops s).routing_total_packets =
      s.routing_total_packets + 1 := by
  simp [track_performance]

/-- C8: whenever the window check passes and the router returns a path, one
Generate attempt applies `track_performance` exactly once — with the
pre-loss latency and path length — whether or not the loss sampling drops
the packet; in particular `total_packets` grows by 1 even for lost
attempts. -/
theorem generate_attempt_tracks (g : Network) (load : TrafficLoad) (alg : CCAlg)
    (tnow : ℚ) (rands : ℕ → ℚ) (st : SimState) (source dest : ℕ)
    (path : List ℕ) (total_latency : ℕ)
    (hwin : (st.packets_in_flight source : ℤ) < (st.tcp source).get_window_size)
    (hpath : dijkstra_shortest_path g source dest = some (path, total_latency)) :
    (generateAttempt g load alg tnow rands st source dest).perf =
      track_performance tnow total_latency path.length st.perf ∧
    (generateAttempt g load alg tnow rands st source dest).perf.routing_total_packets =
      st.perf.routing_total_packets + 1 := by
  have hne : path ≠ [] := dijkstra_some_ne_nil hpath
  unfold generateAttempt
  rw [if_pos hwin, hpath]
  simp only [if_neg hne]
  split
  · exact ⟨rfl, track_performance_total _ _ _ _⟩
  · exact ⟨rfl, track_performance_total _ _ _ _⟩

/-! ## A small concrete topology for exercising the theorems -/

/-- Three nodes: 0 and 1 linked, 2 isolated; `latency n = n + 5`. -/
def gW : Network :=
  { nodes := [0, 1, 2],
    adj := fun n => if n = 0 then [1] else if n = 1 then [0] else [],
    latency := fun n => n + 5 }

/-- Empty statistics. -/
def perf0 : PerfState := ⟨[], [], [], 0, 0, ⊤, 0, []⟩

/-- Fresh engine state over `gW`. -/
def st0 : SimState :=
  { congestion := fun _ => 0, packets_in_flight := fun _ => 0,
    tcp := fun _ => TCPCC.init, packets := [], perf := perf0 }

/-- The C10 theorem at node 0 of the concrete topology. -/
theorem dijkstra_self_witness :
    0 ∈ gW.nodes ∧ dijkstra_shortest_path gW 0 0 = some ([0], 0) :=
  ⟨by decide, dijkstra_self gW 0 (by decide)⟩

/-- The C8 theorem on the concrete topology, with both hypotheses
discharged by evaluation. -/
theorem generate_attempt_tracks_witness :
    ((st0.packets_in_flight 0 : ℤ) < (st0.tcp 0).get_window_size) ∧
    dijkstra_shortest_path gW 0 1 = some ([0, 1], 5) ∧
    ((generateAttempt gW .medium .reno 1 (fun _ => 1) st0 0 1).perf =
        track_performance 1 5 ([0, 1] : List ℕ).length st0.perf ∧
      (generateAttempt gW .medium .reno 1 (fun _ => 1) st0 0 1).perf.routing_total_packets =
        st0.perf.routing_total_packets + 1) :=
  ⟨by decide, by decide,
   generate_attempt_tracks gW .medium .reno 1 (fun _ => 1) st0 0 1 [0, 1] 5
     (by decide) (by decide)⟩

/-! ## Path lemmas -/

theorem head?_mem {p : List ℕ} {a : ℕ} (h : p.head? = some a) : a ∈ p := by
  cases p with
  | nil => simp at h
  | cons x xs => simp at h; simp [h]

theorem getLast?_mem {p : List ℕ} {a : ℕ} (h : p.getLast? = some a) : a ∈ p := by
  induction p with
  | nil => simp at h
  | cons x xs ih =>
      cases hxs : xs with
      | nil => rw [hxs] at h; simp at h; simp [h]
      | cons y ys =>
          rw [hxs] at h
          rw [List.getLast?_cons_cons] at h
          rw [← hxs] at h
          exact List.mem_cons_of_mem _ (hxs ▸ ih (hxs ▸ h))

theorem validPath_ne_nil {g : Network} {a b : ℕ} {p : List ℕ} (h : validPath g a b p) :
    p ≠ [] := by
  intro hnil
  rw [hnil] at h
  simp [validPath] at h

theorem validPath_singleton (g : Network) (a : ℕ) : validPath g a a [a] := by
  refine ⟨rfl, rfl, ?_⟩
  simp

theorem validPath_nodes {g : Network} (hcl : ∀ u ∈ g.nodes, ∀ v ∈ g.adj u, v ∈ g.nodes) :
    ∀ {p : List ℕ} {a b : ℕ}, validPath g a b p → a ∈ g.nodes → ∀ y ∈ p, y ∈ g.nodes := by
  intro p
  induction p with
  | nil => intro a b h; exact absurd rfl (validPath_ne_nil h)
  | cons x xs ih =>
      intro a b h haIn y hy
      obtain ⟨hh, hl, hc⟩ := h
      simp only [List.head?_cons, Option.some.injEq] at hh
      subst hh
      cases hxs : xs with
      | nil =>
          rw [hxs] at hy
          rcases List.mem_cons.mp hy with h' | h'
          · subst h'; exact haIn
          · simp at h'
      | cons z zs =>
          rw [hxs] at hc hl hy
          have hzadj : z ∈ g.adj x := (List.chain'_cons.mp hc).1
          have hzIn : z ∈ g.nodes := hcl x haIn z hzadj
          rcases List.mem_cons.mp hy with h' | h'
          · subst h'; exact haIn
          · have hvalid : validPath g z b (z :: zs) :=
              ⟨rfl, by rw [List.getLast?_cons_cons] at hl; exact hxs ▸ hl,
               (List.chain'_cons.mp hc).2⟩
            exact ih (hxs ▸ hvalid) hzIn y (hxs ▸ h')

theorem exists_first_mem_split {S : List ℕ} :
    ∀ {p : List ℕ}, (∃ y ∈ p, y ∈ S) →
      ∃ p₁ v p₂, p = p₁ ++ v :: p₂ ∧ v ∈ S ∧ ∀ y ∈ p₁, y ∉ S := by
  intro p
  induction p with
  | nil => intro h; simp at h
  | cons x xs ih =>
      intro h
      by_cases hx : x ∈ S
      · exact ⟨[], x, xs, rfl, hx, by simp⟩
      · obtain ⟨y, hy, hyS⟩ := h
        have hy' : y ∈ xs := by
          rcases List.mem_cons.mp hy with h' | h'
          · subst h'; exact absurd hyS hx
          · exact h'
        obtain ⟨p₁, v, p₂, heq, hvS, hp₁⟩ := ih ⟨y, hy', hyS⟩
        refine ⟨x :: p₁, v, p₂, by rw [heq]; rfl, hvS, ?_⟩
        intro z hz
        rcases List.mem_cons.mp hz with h' | h'
        · subst h'; exact hx
        · exact hp₁ z h'

theorem exists_last_occ_split {c : ℕ} :
    ∀ {q : List ℕ}, c ∈ q → ∃ q₁ q₂, q = q₁ ++ c :: q₂ ∧ c ∉ q₂ := by
  intro q
  induction q with
  | nil => intro h; simp at h
  | cons y ys ih =>
      intro h
      by_cases hys : c ∈ ys
      · obtain ⟨q₁, q₂, heq, hnot⟩ := ih hys
        exact ⟨y :: q₁, q₂, by rw [heq]; rfl, hnot⟩
      · have hcy : c = y := by
          rcases List.mem_cons.mp h with h' | h'
          · exact h'
          · exact absurd h' hys
        exact ⟨[], ys, by rw [hcy]; rfl, hys⟩

theorem pathCost_append_cons (g : Network) (xs : List ℕ) (y : ℕ) (ys : List ℕ) :
    pathCost g (xs ++ y :: ys) = (xs.map g.latency).sum + pathCost g (y :: ys) := by
  unfold pathCost
  rw [List.dropLast_append_of_ne_nil _ (by simp)]
  rw [List.map_append, List.sum_append]

theorem pathCost_cons_cons (g : Network) (u v : ℕ) (r : List ℕ) :
    pathCost g (u :: v :: r) = g.latency u + pathCost g (v :: r) := by
  have := pathCost_append_cons g [u] v r
  simpa using this

theorem pathCost_concat {g : Network} {q : List ℕ} {u : ℕ} (h : q.getLast? = some u)
    (v : ℕ) : pathCost g (q ++ [v]) = pathCost g q + g.latency u := by
  have hq : q.dropLast ++ [u] = q := List.dropLast_append_getLast? u h
  unfold pathCost
  rw [List.dropLast_concat]
  calc (q.map g.latency).sum
      = ((q.dropLast ++ [u]).map g.latency).sum := by rw [hq]
    _ = (q.dropLast.map g.latency).sum + g.latency u := by
        rw [List.map_append, List.sum_append]; simp

theorem validPath_prefix {g : Network} {a b : ℕ} {q : List ℕ} {v : ℕ} {r : List ℕ}
    (h : validPath g a b (q ++ v :: r)) : validPath g a v (q ++ [v]) := by
  obtain ⟨hh, hl, hc⟩ := h
  refine ⟨?_, ?_, ?_⟩
  · cases hq : q with
    | nil =>
        rw [hq] at hh
        simp at hh
        simp [hh]
    | cons z zs =>
        rw [hq] at hh
        rw [List.head?_append_of_ne_nil _ (by simp)] at hh
        rw [List.head?_append_of_ne_nil _ (by simp)]
        exact hh
  · simp
  · have : (q ++ [v]) ++ r = q ++ v :: r := by simp
    rw [← this] at hc
    exact (List.chain'_append.mp hc).1

theorem validPath_extend {g : Network} {s n : ℕ} {p : List ℕ} (h : validPath g s n p)
    {nb : ℕ} (hadj : nb ∈ g.adj n) : validPath g s nb (p ++ [nb]) := by
  obtain ⟨hh, hl, hc⟩ := h
  refine ⟨?_, by simp, ?_⟩
  · rw [List.head?_append_of_ne_nil _ (validPath_ne_nil ⟨hh, hl, hc⟩)]
    exact hh
  · rw [List.chain'_append]
    refine ⟨hc, by simp, ?_⟩
    intro x hx y hy
    simp only [List.head?_cons, Option.mem_def, Option.some.injEq] at hy
    rw [hl] at hx
    simp only [Option.mem_def, Option.some.injEq] at hx
    subst hx; subst hy
    exact hadj

/-! ## Relaxation lemmas -/

/-- Less-or-equal on optional distances, `none` playing ∞. -/
def oLe : Option ℕ → Option ℕ → Prop
  | _, none => True
  | none, some _ => False
  | some x, some y => x ≤ y

theorem oLe_refl (o : Option ℕ) : oLe o o := by
  cases o <;> simp [oLe]

theorem oLe_trans {o₁ o₂ o₃ : Option ℕ} (h1 : oLe o₁ o₂) (h2 : oLe o₂ o₃) : oLe o₁ o₃ := by
  cases o₁ <;> cases o₂ <;> cases o₃ <;> simp_all [oLe] <;> omega

theorem oLe_some_ne_none {o : Option ℕ} {x : ℕ} (h : oLe o (some x)) : o ≠ none := by
  cases o
  · simp [oLe] at h
  · simp

theorem distLt_false_oLe {o₁ o₂ : Option ℕ} (h : distLt o₁ o₂ = false) : oLe o₂ o₁ := by
  cases o₁ <;> cases o₂ <;> simp_all [distLt, oLe] <;> omega

theorem relaxOne_untouched (g : Network) (S : List ℕ) (c : ℕ)
    (dp : (ℕ → Option ℕ) × (ℕ → Option ℕ)) (nb : ℕ) {x : ℕ} (hx : x ∉ S) :
    (relaxOne g S c dp nb).1 x = dp.1 x ∧ (relaxOne g S c dp nb).2 x = dp.2 x := by
  unfold relaxOne
  split
  · next hnb =>
      cases hdc : dp.1 c with
      | none => exact ⟨rfl, rfl⟩
      | some dc =>
          simp only
          split
          · have hne : x ≠ nb := fun h => hx (h ▸ hnb)
            exact ⟨by simp [hne], by simp [hne]⟩
          · exact ⟨rfl, rfl⟩
  · exact ⟨rfl, rfl⟩

theorem relaxFold_untouched (g : Network) (S : List ℕ) (c : ℕ) :
    ∀ (L : List ℕ) (dp : (ℕ → Option ℕ) × (ℕ → Option ℕ)) {x : ℕ}, x ∉ S →
      (L.foldl (relaxOne g S c) dp).1 x = dp.1 x ∧
      (L.foldl (relaxOne g S c) dp).2 x = dp.2 x := by
  intro L
  induction L with
  | nil => intro dp x hx; exact ⟨rfl, rfl⟩
  | cons nb L ih =>
      intro dp x hx
      have h1 := relaxOne_untouched g S c dp nb hx
      have h2 := ih (relaxOne g S c dp nb) hx
      simp only [List.foldl_cons]
      exact ⟨h2.1.trans h1.1, h2.2.trans h1.2⟩

theorem distLt_true_oLe {o₁ o₂ : Option ℕ} (h : distLt o₁ o₂ = true) : oLe o₁ o₂ := by
  cases o₁ <;> cases o₂ <;> simp_all [distLt, oLe] <;> omega

theorem relaxOne_mono (g : Network) (S : List ℕ) (c : ℕ)
    (dp : (ℕ → Option ℕ) × (ℕ → Option ℕ)) (nb : ℕ) (x : ℕ) :
    oLe ((relaxOne g S c dp nb).1 x) (dp.1 x) := by
  unfold relaxOne
  split
  · cases hdc : dp.1 c with
    | none => exact oLe_refl _
    | some dc =>
        simp only
        split
        · next hlt =>
            by_cases hx : x = nb
            · subst hx
              simp only [if_pos rfl]
              exact distLt_true_oLe hlt
            · simp only [if_neg hx]
              exact oLe_refl _
        · exact oLe_refl _
  · exact oLe_refl _

theorem relaxFold_mono (g : Network) (S : List ℕ) (c : ℕ) :
    ∀ (L : List ℕ) (dp : (ℕ → Option ℕ) × (ℕ → Option ℕ)) (x : ℕ),
      oLe ((L.foldl (relaxOne g S c) dp).1 x) (dp.1 x) := by
  intro L
  induction L with
  | nil => intro dp x; exact oLe_refl _
  | cons nb L ih =>
      intro dp x
      simp only [List.foldl_cons]
      exact oLe_trans (ih _ x) (relaxOne_mono g S c dp nb x)

theorem relaxOne_cases (g : Network) (S : List ℕ) (c : ℕ)
    (dp : (ℕ → Option ℕ) × (ℕ → Option ℕ)) (nb : ℕ) {dc : ℕ} (hdc : dp.1 c = some dc)
    (x : ℕ) :
    ((relaxOne g S c dp nb).1 x = dp.1 x ∧ (relaxOne g S c dp nb).2 x = dp.2 x) ∨
    (x ∈ S ∧ x = nb ∧ (relaxOne g S c dp nb).1 x = some (dc + g.latency c) ∧
      (relaxOne g S c dp nb).2 x = some c) := by
  unfold relaxOne
  split
  · next hnb =>
      rw [hdc]
      simp only
      split
      · by_cases hx : x = nb
        · subst hx
          exact Or.inr ⟨hnb, rfl, by simp, by simp⟩
        · exact Or.inl ⟨by simp [hx], by simp [hx]⟩
      · exact Or.inl ⟨rfl, rfl⟩
  · exact Or.inl ⟨rfl, rfl⟩

theorem relaxFold_cases (g : Network) (S : List ℕ) (c : ℕ) (hc : c ∉ S) :
    ∀ (L : List ℕ) (dp : (ℕ → Option ℕ) × (ℕ → Option ℕ)) (dc : ℕ),
      dp.1 c = some dc → ∀ x,
      ((L.foldl (relaxOne g S c) dp).1 x = dp.1 x ∧
        (L.foldl (relaxOne g S c) dp).2 x = dp.2 x) ∨
      (x ∈ S ∧ x ∈ L ∧ (L.foldl (relaxOne g S c) dp).1 x = some (dc + g.latency c) ∧
        (L.foldl (relaxOne g S c) dp).2 x = some c) := by
  intro L
  induction L with
  | nil => intro dp dc hdc x; exact Or.inl ⟨rfl, rfl⟩
  | cons nb L ih =>
      intro dp dc hdc x
      simp only [List.foldl_cons]
      have hdc' : (relaxOne g S c dp nb).1 c = some dc :=
        (relaxOne_untouched g S c dp nb hc).1.trans hdc
      rcases ih (relaxOne g S c dp nb) dc hdc' x with ⟨e1, e2⟩ | ⟨hxS, hxL, e1, e2⟩
      · rcases relaxOne_cases g S c dp nb hdc x with ⟨f1, f2⟩ | ⟨hxS, hxnb, f1, f2⟩
        · exact Or.inl ⟨e1.trans f1, e2.trans f2⟩
        · exact Or.inr ⟨hxS, by simp [hxnb], e1.trans f1, e2.trans f2⟩
      · exact Or.inr ⟨hxS, List.mem_cons_of_mem _ hxL, e1, e2⟩

theorem relaxOne_ub (g : Network) (S : List ℕ) (c : ℕ)
    (dp : (ℕ → Option ℕ) × (ℕ → Option ℕ)) {nb : ℕ} {dc : ℕ}
    (hdc : dp.1 c = some dc) (hnbS : nb ∈ S) :
    oLe ((relaxOne g S c dp nb).1 nb) (some (dc + g.latency c)) := by
  unfold relaxOne
  rw [if_pos hnbS, hdc]
  simp only
  split
  · next hlt => simp [oLe]
  · next hlt =>
      have hfalse : distLt (some (dc + g.latency c)) (dp.1 nb) = false := by
        cases hv : distLt (some (dc + g.latency c)) (dp.1 nb)
        · rfl
        · exact absurd hv hlt
      exact distLt_false_oLe hfalse

theorem relaxFold_ub (g : Network) (S : List ℕ) (c : ℕ) (hc : c ∉ S) :
    ∀ (L : List ℕ) (dp : (ℕ → Option ℕ) × (ℕ → Option ℕ)) (dc : ℕ),
      dp.1 c = some dc → ∀ nb ∈ L, nb ∈ S →
      oLe ((L.foldl (relaxOne g S c) dp).1 nb) (some (dc + g.latency c)) := by
  intro L
  induction L with
  | nil => intro dp dc hdc nb hnb; simp at hnb
  | cons nb0 L ih =>
      intro dp dc hdc nb hnb hnbS
      simp only [List.foldl_cons]
      have hdc' : (relaxOne g S c dp nb0).1 c = some dc :=
        (relaxOne_untouched g S c dp nb0 hc).1.trans hdc
      rcases List.mem_cons.mp hnb with h | h
      · subst h
        exact oLe_trans (relaxFold_mono g S c L _ nb)
          (relaxOne_ub g S c dp hdc hnbS)
      · exact ih (relaxOne g S c dp nb0) dc hdc' nb h hnbS

theorem relaxOne_zero (g : Network) (S : List ℕ) (c : ℕ)
    (dp : (ℕ → Option ℕ) × (ℕ → Option ℕ)) (nb : ℕ) {x : ℕ} (hx : dp.1 x = some 0) :
    (relaxOne g S c dp nb).1 x = some 0 ∧ (relaxOne g S c dp nb).2 x = dp.2 x := by
  unfold relaxOne
  split
  · cases hdc : dp.1 c with
    | none => exact ⟨hx, rfl⟩
    | some dc =>
        simp only
        split
        · next hlt =>
            by_cases hxnb : x = nb
            · subst hxnb
              rw [hx] at hlt
              simp [distLt] at hlt
            · exact ⟨by simp [hxnb, hx], by simp [hxnb]⟩
        · exact ⟨hx, rfl⟩
  · exact ⟨hx, rfl⟩

theorem relaxFold_zero (g : Network) (S : List ℕ) (c : ℕ) :
    ∀ (L : List ℕ) (dp : (ℕ → Option ℕ) × (ℕ → Option ℕ)) {x : ℕ},
      dp.1 x = some 0 →
      (L.foldl (relaxOne g S c) dp).1 x = some 0 ∧
      (L.foldl (relaxOne g S c) dp).2 x = dp.2 x := by
  intro L
  induction L with
  | nil => intro dp x hx; exact ⟨hx, rfl⟩
  | cons nb L ih =>
      intro dp x hx
      simp only [List.foldl_cons]
      have h1 := relaxOne_zero g S c dp nb hx
      have h2 := ih (relaxOne g S c dp nb) h1.1
      exact ⟨h2.1, h2.2.trans h1.2⟩

/-! ## The predecessor spine

`Spine n v d` says that following `previous` pointers from `v` for `n`
steps reaches the source along settled nodes, reproducing distance `d`. -/

def Spine (g : Network) (dist prev : ℕ → Option ℕ) (S : List ℕ) (a : ℕ) :
    ℕ → ℕ → ℕ → Prop
  | 0, v, d => v = a ∧ d = 0
  | n + 1, v, d =>
      ∃ u du, prev v = some u ∧ u ∉ S ∧ v ∈ g.adj u ∧ dist u = some du ∧
        d = du + g.latency u ∧ Spine g dist prev S a n u du

theorem spine_transport {g : Network} {dist prev dist' prev' : ℕ → Option ℕ}
    {S S' : List ℕ} {a : ℕ}
    (hsub : ∀ x, x ∈ S' → x ∈ S)
    (hfix : ∀ x, x ∉ S → dist' x = dist x ∧ prev' x = prev x) :
    ∀ {n v d}, prev' v = prev v → Spine g dist prev S a n v d →
      Spine g dist' prev' S' a n v d := by
  intro n
  induction n with
  | zero => intro v d _ h; exact h
  | succ m ih =>
      intro v d hv h
      obtain ⟨u, du, hprev, huS, hadj, hdu, hd, hsp⟩ := h
      have huS' : u ∉ S' := fun h' => huS (hsub u h')
      refine ⟨u, du, hv.trans hprev, huS', hadj, (hfix u huS).1.trans hdu, hd, ?_⟩
      exact ih (hfix u huS).2 hsp

theorem spine_follow {g : Network} {dist prev : ℕ → Option ℕ} {S : List ℕ} {a : ℕ}
    (prevA : prev a = none) :
    ∀ {n v d}, Spine g dist prev S a n v d → ∀ fuel, n ≤ fuel →
      validPath g a v ((follow prev fuel v).reverse) ∧
      pathCost g ((follow prev fuel v).reverse) = d ∧
      ((follow prev fuel v).reverse).getLast? = some v := by
  intro n
  induction n with
  | zero =>
      intro v d h fuel _
      have hv : v = a := h.1
      have hd : d = 0 := h.2
      rw [hv, hd, follow_of_prev_none prevA]
      exact ⟨validPath_singleton g a, by simp [pathCost], rfl⟩
  | succ m ih =>
      intro v d h fuel hfuel
      obtain ⟨u, du, hprev, huS, hadj, hdu, hd, hsp⟩ := h
      cases fuel with
      | zero => omega
      | succ f =>
          have hf : m ≤ f := Nat.le_of_succ_le_succ hfuel
          obtain ⟨ihvalid, ihcost, ihlast⟩ := ih hsp f hf
          simp only [follow, hprev]
          rw [List.reverse_cons]
          refine ⟨validPath_extend ihvalid hadj, ?_, by simp⟩
          rw [pathCost_concat ihlast v, ihcost, hd]

/-! ## The Dijkstra loop invariant -/

theorem distLt_false_some {o : Option ℕ} {dc : ℕ} (h : distLt o (some dc) = false) :
    o = none ∨ ∃ dy, o = some dy ∧ dc ≤ dy := by
  cases o with
  | none => exact Or.inl rfl
  | some dy =>
      refine Or.inr ⟨dy, rfl, ?_⟩
      simp only [distLt, decide_eq_false_iff_not, not_lt] at h
      exact h

/-- Invariant of the state `(distances, previous, unvisited)` of the
Dijkstra loop, for source `a`. -/
structure DijkInv (g : Network) (a : ℕ) (dist prev : ℕ → Option ℕ) (S : List ℕ) : Prop where
  ssub : ∀ z ∈ S, z ∈ g.nodes
  snodup : S.Nodup
  distA : dist a = some 0
  prevA : prev a = none
  visSome : ∀ v ∈ g.nodes, v ∉ S → dist v ≠ none
  visOpt : ∀ v ∈ g.nodes, v ∉ S → ∀ d, dist v = some d →
      ∀ p, validPath g a v p → d ≤ pathCost g p
  frontier : ∀ u ∈ g.nodes, u ∉ S → ∀ w ∈ g.adj u, w ∈ S → ∀ du, dist u = some du →
      ∃ dw, dist w = some dw ∧ dw ≤ du + g.latency u
  spine : ∀ v d, dist v = some d →
      ∃ n, n + S.length ≤ g.nodes.length ∧ Spine g dist prev S a n v d
  reach : ∀ w, dist w ≠ none → ∀ z q, validPath g w z q → z ∈ S →
      ∃ u, u ∈ S ∧ u ∈ q ∧ dist u ≠ none

/-- The invariant at loop entry. -/
theorem dijkinv_init {g : Network} {a : ℕ} (hnodup : g.nodes.Nodup) (haIn : a ∈ g.nodes) :
    DijkInv g a (fun n => if n = a then some 0 else none) (fun _ => none) g.nodes where
  ssub := fun z hz => hz
  snodup := hnodup
  distA := by simp
  prevA := rfl
  visSome := fun v hv hv' => absurd hv hv'
  visOpt := fun v hv hv' => absurd hv hv'
  frontier := fun u hu hu' => absurd hu hu'
  spine := by
    intro v d hv
    by_cases hva : v = a
    · subst hva
      rw [if_pos rfl] at hv
      refine ⟨0, by omega, rfl, ?_⟩
      injection hv with hv
      exact hv.symm
    · rw [if_neg hva] at hv
      exact absurd hv (by simp)
  reach := by
    intro w hw z q hq hz
    by_cases hwa : w = a
    · subst hwa
      exact ⟨w, haIn, head?_mem hq.1, hw⟩
    · rw [if_neg hwa] at hw
      simp at hw

/-- When the selected node has a finite tentative distance, that distance
is a lower bound on the cost of every path from the source to it. -/
theorem select_min {g : Network} {a : ℕ}
    (hcl : ∀ u ∈ g.nodes, ∀ v ∈ g.adj u, v ∈ g.nodes) (haIn : a ∈ g.nodes)
    {dist prev : ℕ → Option ℕ} {x : ℕ} {xs : List ℕ}
    (inv : DijkInv g a dist prev (x :: xs)) {dc : ℕ}
    (hdc : dist (argminD dist xs x) = some dc) :
    ∀ p, validPath g a (argminD dist xs x) p → dc ≤ pathCost g p := by
  intro p hp
  have hcS : argminD dist xs x ∈ x :: xs := argminD_mem dist xs x
  have hnodes : ∀ y ∈ p, y ∈ g.nodes := validPath_nodes hcl hp haIn
  have hcp : argminD dist xs x ∈ p := getLast?_mem hp.2.1
  obtain ⟨p₁, v₁, p₂, heq, hv₁S, hp₁⟩ :=
    exists_first_mem_split ⟨argminD dist xs x, hcp, hcS⟩
  have hminv₁ := argminD_min dist xs x v₁ hv₁S
  rw [hdc] at hminv₁
  rcases List.eq_nil_or_concat' p₁ with h₁ | ⟨q, u, hqu⟩
  · -- the first unvisited node of the path is its head, the source
    subst h₁
    have hv₁a : v₁ = a := by
      have hh := hp.1
      rw [heq] at hh
      simp at hh
      exact hh
    rw [hv₁a, inv.distA] at hminv₁
    simp only [distLt, decide_eq_false_iff_not, not_lt, Nat.le_zero] at hminv₁
    subst hminv₁
    exact Nat.zero_le _
  · -- the first unvisited node has an already settled predecessor u
    subst hqu
    have huS : u ∉ x :: xs := hp₁ u (by simp)
    have hup : u ∈ p := by rw [heq]; simp
    have huN : u ∈ g.nodes := hnodes u hup
    cases hdu : dist u with
    | none => exact absurd hdu (inv.visSome u huN huS)
    | some du =>
        have heq' : p = q ++ u :: v₁ :: p₂ := by rw [heq]; simp
        have hpre : validPath g a u (q ++ [u]) := validPath_prefix (heq' ▸ hp)
        have hopt : du ≤ pathCost g (q ++ [u]) := inv.visOpt u huN huS du hdu _ hpre
        have hadj : v₁ ∈ g.adj u := by
          have hch := hp.2.2
          rw [heq] at hch
          have := (List.chain'_append.mp hch).2.2
          exact this u (by simp) v₁ (by simp)
        obtain ⟨dv₁, hdv₁, hbound⟩ :=
          inv.frontier u huN huS v₁ hadj hv₁S du hdu
        rw [hdv₁] at hminv₁
        simp only [distLt, decide_eq_false_iff_not, not_lt] at hminv₁
        have hcost : (q.map g.latency).sum + g.latency u ≤ pathCost g p := by
          rw [heq', pathCost_append_cons, pathCost_cons_cons]
          omega
        have hqcost : pathCost g (q ++ [u]) = (q.map g.latency).sum := by
          rw [pathCost_append_cons]
          simp [pathCost]
        omega

theorem oLe_some_elim {o : Option ℕ} {k : ℕ} (h : oLe o (some k)) :
    ∃ y, o = some y ∧ y ≤ k := by
  cases o with
  | none => simp [oLe] at h
  | some y => exact ⟨y, rfl, h⟩

/-- One loop iteration (select the minimum `c`, remove it from the
unvisited set, relax its neighbors) preserves the invariant. -/
theorem dijkinv_step {g : Network} {a : ℕ}
    (hcl : ∀ u ∈ g.nodes, ∀ v ∈ g.adj u, v ∈ g.nodes) (haIn : a ∈ g.nodes)
    {dist prev : ℕ → Option ℕ} {x : ℕ} {xs : List ℕ}
    (inv : DijkInv g a dist prev (x :: xs)) {dc : ℕ}
    (hdc : dist (argminD dist xs x) = some dc) :
    DijkInv g a
      (relax g ((x :: xs).erase (argminD dist xs x)) (argminD dist xs x) (dist, prev)).1
      (relax g ((x :: xs).erase (argminD dist xs x)) (argminD dist xs x) (dist, prev)).2
      ((x :: xs).erase (argminD dist xs x)) := by
  set c := argminD dist xs x with hcdef
  set S' := (x :: xs).erase c with hS'
  have hcS : c ∈ x :: xs := argminD_mem dist xs x
  have hcS' : c ∉ S' := inv.snodup.not_mem_erase
  have hsub' : ∀ z, z ∈ S' → z ∈ x :: xs := fun z hz => List.erase_subset _ _ hz
  have hmemS' : ∀ z, z ∈ x :: xs → z ≠ c → z ∈ S' :=
    fun z hz hne => (List.mem_erase_of_ne hne).mpr hz
  have hlen : S'.length + 1 = (x :: xs).length := List.length_erase_add_one hcS
  show DijkInv g a
      ((g.adj c).foldl (relaxOne g S' c) (dist, prev)).1
      ((g.adj c).foldl (relaxOne g S' c) (dist, prev)).2 S'
  set dp' := (g.adj c).foldl (relaxOne g S' c) (dist, prev) with hdp'
  have hfix : ∀ z, z ∉ S' → dp'.1 z = dist z ∧ dp'.2 z = prev z :=
    fun z hz => relaxFold_untouched g S' c (g.adj c) (dist, prev) hz
  have hfixout : ∀ z, z ∉ x :: xs → dp'.1 z = dist z ∧ dp'.2 z = prev z :=
    fun z hz => hfix z (fun h' => hz (hsub' z h'))
  have hcases := relaxFold_cases g S' c hcS' (g.adj c) (dist, prev) dc hdc
  have hmono : ∀ z, oLe (dp'.1 z) (dist z) :=
    fun z => relaxFold_mono g S' c (g.adj c) (dist, prev) z
  have hpres : ∀ z, dist z ≠ none → dp'.1 z ≠ none := by
    intro z hz
    cases hv : dist z with
    | none => exact absurd hv hz
    | some y =>
        have hm := hmono z
        rw [hv] at hm
        exact oLe_some_ne_none hm
  have hdistc : dp'.1 c = some dc := (hfix c hcS').1.trans hdc
  have hub : ∀ nb ∈ g.adj c, nb ∈ S' →
      ∃ y, dp'.1 nb = some y ∧ y ≤ dc + g.latency c :=
    fun nb hnbL hnbS =>
      oLe_some_elim (relaxFold_ub g S' c hcS' (g.adj c) (dist, prev) dc hdc nb hnbL hnbS)
  refine ⟨?_, ?_, ?_, ?_, ?_, ?_, ?_, ?_, ?_⟩
  · exact fun z hz => inv.ssub z (hsub' z hz)
  · exact inv.snodup.erase c
  · exact (relaxFold_zero g S' c (g.adj c) (dist, prev) inv.distA).1
  · exact (relaxFold_zero g S' c (g.adj c) (dist, prev) inv.distA).2.trans inv.prevA
  · -- visSome
    intro v hvN hvS'
    by_cases hvS : v ∈ x :: xs
    · have hvc : v = c := by
        by_contra hne
        exact hvS' (hmemS' v hvS hne)
      rw [hvc, hdistc]
      simp
    · rw [(hfixout v hvS).1]
      exact inv.visSome v hvN hvS
  · -- visOpt
    intro v hvN hvS' d hd p hp
    by_cases hvS : v ∈ x :: xs
    · have hvc : v = c := by
        by_contra hne
        exact hvS' (hmemS' v hvS hne)
      subst hvc
      rw [hdistc] at hd
      injection hd with hd
      subst hd
      exact select_min hcl haIn inv hdc p hp
    · rw [(hfixout v hvS).1] at hd
      exact inv.visOpt v hvN hvS d hd p hp
  · -- frontier
    intro u huN huS' w hw hwS' du' hdu'
    by_cases huS : u ∈ x :: xs
    · have huc : u = c := by
        by_contra hne
        exact huS' (hmemS' u huS hne)
      subst huc
      rw [hdistc] at hdu'
      injection hdu' with hdu'
      subst hdu'
      exact hub w hw hwS'
    · rw [(hfixout u huS).1] at hdu'
      obtain ⟨dw, hdw, hdwle⟩ :=
        inv.frontier u huN huS w hw (hsub' w hwS') du' hdu'
      have hm := hmono w
      rw [hdw] at hm
      obtain ⟨dw', hdw', hdw'le⟩ := oLe_some_elim hm
      exact ⟨dw', hdw', by omega⟩
  · -- spine
    intro v d hd
    rcases hcases v with ⟨e1, e2⟩ | ⟨hvS', hvadj, e1, e2⟩
    · rw [e1] at hd
      obtain ⟨n, hn, hsp⟩ := inv.spine v d hd
      refine ⟨n, by omega, ?_⟩
      exact spine_transport hsub' hfixout e2 hsp
    · rw [e1] at hd
      injection hd with hd
      obtain ⟨nc, hnc, hspc⟩ := inv.spine c dc hdc
      refine ⟨nc + 1, by omega, ?_⟩
      refine ⟨c, dc, e2, hcS', hvadj, hdistc, hd.symm, ?_⟩
      exact spine_transport hsub' hfixout (hfix c hcS').2 hspc
  · -- reach
    intro w hw z q hq hzS'
    have hzS : z ∈ x :: xs := hsub' z hzS'
    by_cases hwold : dist w ≠ none
    · obtain ⟨u, huS, huq, hune⟩ := inv.reach w hwold z q hq hzS
      by_cases huc : u = c
      · subst huc
        have hzc : z ≠ c := by
          intro h
          rw [h] at hzS'
          exact hcS' hzS'
        obtain ⟨q₁, q₂, hqeq, hcq₂⟩ := exists_last_occ_split huq
        cases hq₂ : q₂ with
        | nil =>
            rw [hq₂] at hqeq
            have hlast : q.getLast? = some c := by
              rw [hqeq]
              exact List.getLast?_concat _
            rw [hq.2.1] at hlast
            injection hlast with hlast
            exact absurd hlast hzc
        | cons w₂ q₃ =>
            rw [hq₂] at hqeq hcq₂
            have hch := hq.2.2
            rw [hqeq] at hch
            have hchr : List.Chain' (fun s t => t ∈ g.adj s) (c :: w₂ :: q₃) :=
              (List.chain'_append.mp hch).2.1
            have hadj : w₂ ∈ g.adj c := (List.chain'_cons.mp hchr).1
            have hw₂c : w₂ ≠ c := fun h => hcq₂ (h ▸ List.mem_cons_self _ _)
            have hw₂q : w₂ ∈ q := by
              rw [hqeq]
              exact List.mem_append_right _ (List.mem_cons_of_mem _ (List.mem_cons_self _ _))
            by_cases hw₂S' : w₂ ∈ S'
            · obtain ⟨y, hy, _⟩ := hub w₂ hadj hw₂S'
              exact ⟨w₂, hw₂S', hw₂q, by rw [hy]; simp⟩
            · have hw₂S : w₂ ∉ x :: xs := by
                intro hmem
                exact hw₂S' (hmemS' w₂ hmem hw₂c)
              have hw₂N : w₂ ∈ g.nodes := hcl c (inv.ssub c hcS) w₂ hadj
              have hw₂ne : dist w₂ ≠ none := inv.visSome w₂ hw₂N hw₂S
              have hsuffix : validPath g w₂ z (w₂ :: q₃) := by
                refine ⟨rfl, ?_, (List.chain'_cons.mp hchr).2⟩
                have hl := hq.2.1
                rw [hqeq, List.getLast?_append_cons, List.getLast?_cons_cons] at hl
                exact hl
              obtain ⟨u₂, hu₂S, hu₂q, hu₂ne⟩ :=
                inv.reach w₂ hw₂ne z (w₂ :: q₃) hsuffix hzS
              have hu₂c : u₂ ≠ c := fun h => hcq₂ (h ▸ hu₂q)
              refine ⟨u₂, hmemS' u₂ hu₂S hu₂c, ?_, hpres u₂ hu₂ne⟩
              rw [hqeq]
              exact List.mem_append_right _ (List.mem_cons_of_mem _ hu₂q)
      · exact ⟨u, hmemS' u huS huc, huq, hpres u hune⟩
    · push_neg at hwold
      rcases hcases w with ⟨e1, _⟩ | ⟨hwS', _, e1, _⟩
      · rw [e1] at hw
        exact absurd hwold hw
      · exact ⟨w, hwS', head?_mem hq.1, hw⟩

/-! ## Soundness, optimality and completeness of the Dijkstra loop -/

theorem dijkstraLoop_sound {g : Network} {a b : ℕ}
    (hcl : ∀ u ∈ g.nodes, ∀ v ∈ g.adj u, v ∈ g.nodes) (haIn : a ∈ g.nodes) :
    ∀ (fuel : ℕ) (dist prev : ℕ → Option ℕ) (S : List ℕ),
      DijkInv g a dist prev S →
      ∀ p d, dijkstraLoop g b fuel dist prev S = some (p, d) →
        validPath g a b p ∧ pathCost g p = d ∧
        ∀ q, validPath g a b q → d ≤ pathCost g q := by
  intro fuel
  induction fuel with
  | zero => intro dist prev S inv p d h; simp [dijkstraLoop] at h
  | succ f ih =>
      intro dist prev S inv p d h
      cases S with
      | nil => simp [dijkstraLoop] at h
      | cons x xs =>
          simp only [dijkstraLoop] at h
          cases hval : dist (argminD dist xs x) with
          | none => rw [hval] at h; simp at h
          | some dc =>
              rw [hval] at h
              simp only at h
              split at h
              · next hcb =>
                  have hpd : (follow prev g.nodes.length b).reverse = p ∧ dc = d := by
                    have := h
                    injection this with h1
                    injection h1 with h2 h3
                    exact ⟨h2, h3⟩
                  obtain ⟨n, hn, hsp⟩ := inv.spine (argminD dist xs x) dc hval
                  rw [hcb] at hsp
                  have hfol := spine_follow inv.prevA hsp g.nodes.length (by
                    simp only [List.length_cons] at hn
                    omega)
                  have hopt := select_min hcl haIn inv hval
                  rw [hcb] at hopt
                  refine ⟨hpd.1 ▸ hfol.1, ?_, ?_⟩
                  · rw [← hpd.1, ← hpd.2]
                    exact hfol.2.1
                  · rw [← hpd.2]
                    exact hopt
              · exact ih _ _ _ (dijkinv_step hcl haIn inv hval) p d h

theorem dijkstraLoop_complete {g : Network} {a b : ℕ}
    (hcl : ∀ u ∈ g.nodes, ∀ v ∈ g.adj u, v ∈ g.nodes) (haIn : a ∈ g.nodes) :
    ∀ (fuel : ℕ) (dist prev : ℕ → Option ℕ) (S : List ℕ),
      DijkInv g a dist prev S → b ∈ S → S.length < fuel →
      dijkstraLoop g b fuel dist prev S = none → ¬ Reachable g a b := by
  intro fuel
  induction fuel with
  | zero => intro dist prev S inv hb hlen h; omega
  | succ f ih =>
      intro dist prev S inv hb hlen h
      cases S with
      | nil => simp at hb
      | cons x xs =>
          simp only [dijkstraLoop] at h
          cases hval : dist (argminD dist xs x) with
          | none =>
              intro hreach
              obtain ⟨q, hq⟩ := hreach
              have hane : dist a ≠ none := by
                rw [inv.distA]; simp
              obtain ⟨u, huS, _, hune⟩ := inv.reach a hane b q hq hb
              exact hune (argminD_none dist hval u huS)
          | some dc =>
              rw [hval] at h
              simp only at h
              split at h
              · simp at h
              · next hcb =>
                  have hbS' : b ∈ (x :: xs).erase (argminD dist xs x) :=
                    (List.mem_erase_of_ne (fun hbc => hcb hbc.symm)).mpr hb
                  have hlen' : ((x :: xs).erase (argminD dist xs x)).length < f := by
                    have := List.length_erase_add_one (argminD_mem dist xs x)
                    simp only [List.length_cons] at hlen this
                    omega
                  exact ih _ _ _ (dijkinv_step hcl haIn inv hval) hbS' hlen' h

/-- C1: whenever `dijkstra_shortest_path(a, b)` returns `(path, total)`,
the path is a valid `a`-to-`b` path of the topology and `total` is a lower
bound on the leave-node cost of every `a`-to-`b` path. -/
theorem dijkstra_shortest_path_correct {g : Network} {a b : ℕ} {p : List ℕ} {d : ℕ}
    (hwf : Wellformed g) (ha : a ∈ g.nodes) (hb : b ∈ g.nodes)
    (h : dijkstra_shortest_path g a b = some (p, d)) :
    validPath g a b p ∧ ∀ q, validPath g a b q → d ≤ pathCost g q := by
  have hs := dijkstraLoop_sound hwf.1 ha (g.nodes.length + 1) _ _ g.nodes
    (dijkinv_init hwf.2 ha) p d h
  exact ⟨hs.1, hs.2.2⟩

/-- C3: the returned `total_latency` is exactly the sum of `latency` over
the returned path's nodes excluding the destination. -/
theorem dijkstra_total_latency {g : Network} {a b : ℕ} {p : List ℕ} {d : ℕ}
    (hwf : Wellformed g) (ha : a ∈ g.nodes) (hb : b ∈ g.nodes)
    (h : dijkstra_shortest_path g a b = some (p, d)) :
    d = pathCost g p := by
  have hs := dijkstraLoop_sound hwf.1 ha (g.nodes.length + 1) _ _ g.nodes
    (dijkinv_init hwf.2 ha) p d h
  exact hs.2.1.symm

/-- The C1 theorem exercised on the concrete topology. -/
theorem dijkstra_shortest_path_correct_witness :
    Wellformed gW ∧ 0 ∈ gW.nodes ∧ 1 ∈ gW.nodes ∧
    dijkstra_shortest_path gW 0 1 = some ([0, 1], 5) ∧
    (validPath gW 0 1 [0, 1] ∧ ∀ q, validPath gW 0 1 q → 5 ≤ pathCost gW q) :=
  ⟨by decide, by decide, by decide, by decide,
   @dijkstra_shortest_path_correct gW 0 1 [0, 1] 5 (by decide) (by decide) (by decide)
     (by decide)⟩

/-- The C3 theorem exercised on the concrete topology. -/
theorem dijkstra_total_latency_witness :
    Wellformed gW ∧ 0 ∈ gW.nodes ∧ 1 ∈ gW.nodes ∧
    dijkstra_shortest_path gW 0 1 = some ([0, 1], 5) ∧
    5 = pathCost gW [0, 1] :=
  ⟨by decide, by decide, by decide, by decide,
   @dijkstra_total_latency gW 0 1 [0, 1] 5 (by decide) (by decide) (by decide) (by decide)⟩

/-! ## BFS (`find_path`) soundness and completeness -/

theorem bfsLoop_sound {g : Network} {source dest : ℕ} :
    ∀ (fuel : ℕ) (queue : List (ℕ × List ℕ)) (visited : List ℕ),
      (∀ e ∈ queue, validPath g source e.1 e.2) →
      ∀ p, bfsLoop g dest fuel queue visited = some p → validPath g source dest p := by
  intro fuel
  induction fuel with
  | zero => intro queue visited hq p h; simp [bfsLoop] at h
  | succ f ih =>
      intro queue visited hq p h
      cases queue with
      | nil => simp [bfsLoop] at h
      | cons e rest =>
          obtain ⟨node, path⟩ := e
          simp only [bfsLoop] at h
          split at h
          · next hnd =>
              injection h with h
              subst h
              have := hq (node, path) (List.mem_cons_self _ _)
              rw [hnd] at this
              exact this
          · split at h
            · exact ih rest visited (fun e he => hq e (List.mem_cons_of_mem _ he)) p h
            · refine ih _ _ ?_ p h
              intro e he
              rcases List.mem_append.mp he with he | he
              · exact hq e (List.mem_cons_of_mem _ he)
              · obtain ⟨nb, hnb, hme⟩ := List.mem_map.mp he
                have hnbadj : nb ∈ g.adj node := List.mem_of_mem_filter hnb
                have hvp := hq (node, path) (List.mem_cons_self _ _)
                rw [← hme]
                exact validPath_extend hvp hnbadj

theorem walk_closed {g : Network} {V : List ℕ}
    (hclosure : ∀ v ∈ V, ∀ w ∈ g.adj v, w ∈ V) :
    ∀ (q : List ℕ) (s z : ℕ), validPath g s z q → s ∈ V → z ∈ V := by
  intro q
  induction q with
  | nil => intro s z h; exact absurd rfl (validPath_ne_nil h)
  | cons y ys ih =>
      intro s z h hs
      obtain ⟨hh, hl, hc⟩ := h
      simp only [List.head?_cons, Option.some.injEq] at hh
      subst hh
      cases hys : ys with
      | nil =>
          rw [hys] at hl
          simp at hl
          rw [← hl]
          exact hs
      | cons w rest =>
          rw [hys] at hl hc
          have hw : w ∈ g.adj y := (List.chain'_cons.mp hc).1
          have hwV : w ∈ V := hclosure y hs w hw
          have hvalid : validPath g w z (w :: rest) :=
            ⟨rfl, by rw [List.getLast?_cons_cons] at hl; exact hl,
             (List.chain'_cons.mp hc).2⟩
          exact ih w z (hys ▸ hvalid) hwV

/-- The invariant of the BFS loop used for completeness. -/
structure BfsInv (g : Network) (source dest : ℕ)
    (queue : List (ℕ × List ℕ)) (visited : List ℕ) (fuel : ℕ) : Prop where
  closure : ∀ v ∈ visited, ∀ w ∈ g.adj v, w ∈ visited ∨ w ∈ queue.map Prod.fst
  src : source ∈ visited ∨ source ∈ queue.map Prod.fst
  destNot : dest ∉ visited
  qnodes : ∀ e ∈ queue, e.1 ∈ g.nodes
  vnodes : ∀ v ∈ visited, v ∈ g.nodes
  fuelB : queue.length + ((g.nodes.filter (fun u => decide (u ∉ visited))).map
      (fun u => (g.adj u).length)).sum ≤ fuel

theorem bfs_empty_queue_unreachable {g : Network} {source dest : ℕ} {visited : List ℕ}
    (hclosure : ∀ v ∈ visited, ∀ w ∈ g.adj v, w ∈ visited ∨ w ∈ ([] : List ℕ))
    (hsrc : source ∈ visited ∨ source ∈ ([] : List ℕ))
    (hdest : dest ∉ visited) : ¬ Reachable g source dest := by
  rintro ⟨q, hq⟩
  have hclosure' : ∀ v ∈ visited, ∀ w ∈ g.adj v, w ∈ visited := by
    intro v hv w hw
    rcases hclosure v hv w hw with h | h
    · exact h
    · simp at h
  have hsrc' : source ∈ visited := by
    rcases hsrc with h | h
    · exact h
    · simp at h
  exact hdest (walk_closed hclosure' q source dest hq hsrc')

theorem bfsLoop_complete {g : Network} {source dest : ℕ}
    (hcl : ∀ u ∈ g.nodes, ∀ v ∈ g.adj u, v ∈ g.nodes) (hnodup : g.nodes.Nodup) :
    ∀ (fuel : ℕ) (queue : List (ℕ × List ℕ)) (visited : List ℕ),
      BfsInv g source dest queue visited fuel →
      bfsLoop g dest fuel queue visited = none → ¬ Reachable g source dest := by
  intro fuel
  induction fuel with
  | zero =>
      intro queue visited inv h
      have hq : queue = [] := by
        have := inv.fuelB
        cases queue with
        | nil => rfl
        | cons e rest => simp at this
      subst hq
      exact bfs_empty_queue_unreachable (by simpa using inv.closure)
        (by simpa using inv.src) inv.destNot
  | succ f ih =>
      intro queue visited inv h
      cases queue with
      | nil =>
          exact bfs_empty_queue_unreachable (by simpa using inv.closure)
            (by simpa using inv.src) inv.destNot
      | cons e rest =>
          obtain ⟨node, path⟩ := e
          simp only [bfsLoop] at h
          split at h
          · simp at h
          · next hnd =>
            split at h
            · next hvis =>
                refine ih rest visited ⟨?_, ?_, inv.destNot, ?_, inv.vnodes, ?_⟩ h
                · intro v hv w hw
                  rcases inv.closure v hv w hw with h' | h'
                  · exact Or.inl h'
                  · simp only [List.map_cons] at h'
                    rcases List.mem_cons.mp h' with h'' | h''
                    · exact Or.inl (h'' ▸ hvis)
                    · exact Or.inr h''
                · rcases inv.src with h' | h'
                  · exact Or.inl h'
                  · simp only [List.map_cons] at h'
                    rcases List.mem_cons.mp h' with h'' | h''
                    · exact Or.inl (h'' ▸ hvis)
                    · exact Or.inr h''
                · exact fun e he => inv.qnodes e (List.mem_cons_of_mem _ he)
                · have := inv.fuelB
                  simp only [List.length_cons] at this
                  omega
            · next hvis =>
                have hnodeN : node ∈ g.nodes :=
                  inv.qnodes (node, path) (List.mem_cons_self _ _)
                refine ih _ _ ⟨?_, ?_, ?_, ?_, ?_, ?_⟩ h
                · -- closure
                  intro v hv w hw
                  rcases List.mem_cons.mp hv with hveq | hv'
                  · subst hveq
                    by_cases hwvis : w ∈ v :: visited
                    · exact Or.inl hwvis
                    · refine Or.inr ?_
                      rw [List.map_append]
                      refine List.mem_append_right _ ?_
                      rw [List.map_map]
                      refine List.mem_map.mpr ⟨w, ?_, rfl⟩
                      exact List.mem_filter.mpr ⟨hw, by simpa using hwvis⟩
                  · rcases inv.closure v hv' w hw with h' | h'
                    · exact Or.inl (List.mem_cons_of_mem _ h')
                    · simp only [List.map_cons] at h'
                      rcases List.mem_cons.mp h' with h'' | h''
                      · exact Or.inl (h'' ▸ List.mem_cons_self _ _)
                      · refine Or.inr ?_
                        rw [List.map_append]
                        exact List.mem_append_left _ h''
                · -- source
                  rcases inv.src with h' | h'
                  · exact Or.inl (List.mem_cons_of_mem _ h')
                  · simp only [List.map_cons] at h'
                    rcases List.mem_cons.mp h' with h'' | h''
                    · exact Or.inl (h'' ▸ List.mem_cons_self _ _)
                    · refine Or.inr ?_
                      rw [List.map_append]
                      exact List.mem_append_left _ h''
                · -- dest not visited
                  intro hd
                  rcases List.mem_cons.mp hd with h' | h'
                  · exact hnd h'.symm
                  · exact inv.destNot h'
                · -- queue entries are nodes
                  intro e he
                  rcases List.mem_append.mp he with he | he
                  · exact inv.qnodes e (List.mem_cons_of_mem _ he)
                  · obtain ⟨nb, hnb, hme⟩ := List.mem_map.mp he
                    have : nb ∈ g.adj node := List.mem_of_mem_filter hnb
                    rw [← hme]
                    exact hcl node hnodeN nb this
                · -- visited nodes are nodes
                  intro v hv
                  rcases List.mem_cons.mp hv with h' | h'
                  · exact h' ▸ hnodeN
                  · exact inv.vnodes v h'
                · -- fuel bound
                  have hold := inv.fuelB
                  simp only [List.length_cons] at hold
                  have hlnew : g.nodes.filter (fun u => decide (u ∉ node :: visited)) =
                      (g.nodes.filter (fun u => decide (u ∉ visited))).erase node := by
                    rw [(hnodup.filter _).erase_eq_filter, List.filter_filter]
                    apply List.filter_congr
                    intro u hu
                    by_cases h1 : u = node <;> by_cases h2 : u ∈ visited <;>
                      simp [h1, h2]
                  have hmem₀ : node ∈ g.nodes.filter (fun u => decide (u ∉ visited)) :=
                    List.mem_filter.mpr ⟨hnodeN, by simpa using hvis⟩
                  have hperm := (List.perm_cons_erase hmem₀).map (fun u => (g.adj u).length)
                  have hsum := hperm.sum_eq
                  simp only [List.map_cons, List.sum_cons] at hsum
                  rw [List.length_append, List.length_map, hlnew]
                  have hfl : (((g.adj node).filter
                      (fun nb => decide (nb ∉ node :: visited))).length) ≤
                      (g.adj node).length := List.length_filter_le _ _
                  omega

/-- C2: the router returns `None` exactly when destination `b` is not
reachable from source `a` over the topology's links, and this coincides
with the BFS `find_path` returning `None`. -/
theorem dijkstra_none_iff_bfs {g : Network} {a b : ℕ}
    (hwf : Wellformed g) (ha : a ∈ g.nodes) (hb : b ∈ g.nodes) :
    (dijkstra_shortest_path g a b = none ↔ ¬ Reachable g a b) ∧
    (dijkstra_shortest_path g a b = none ↔ find_path g a b = none) := by
  have hdij : dijkstra_shortest_path g a b = none ↔ ¬ Reachable g a b := by
    constructor
    · intro h
      unfold dijkstra_shortest_path at h
      exact dijkstraLoop_complete hwf.1 ha (g.nodes.length + 1) _ _ g.nodes
        (dijkinv_init hwf.2 ha) hb (by omega) h
    · intro h
      cases hres : dijkstra_shortest_path g a b with
      | none => rfl
      | some pd =>
          obtain ⟨p, d⟩ := pd
          have hcorr := dijkstra_shortest_path_correct hwf ha hb hres
          exact absurd ⟨p, hcorr.1⟩ h
  have hbfs : find_path g a b = none ↔ ¬ Reachable g a b := by
    constructor
    · intro h
      unfold find_path at h
      refine bfsLoop_complete hwf.1 hwf.2 (bfsFuel g) _ _
        ⟨?_, ?_, ?_, ?_, ?_, ?_⟩ h
      · intro v hv; simp at hv
      · right; simp
      · simp
      · intro e he
        simp only [List.mem_singleton] at he
        rw [he]
        exact ha
      · intro v hv; simp at hv
      · simp [bfsFuel]
    · intro h
      cases hres : find_path g a b with
      | none => rfl
      | some p =>
          unfold find_path at hres
          have hsound := bfsLoop_sound (bfsFuel g) [(a, [a])] [] (by
            intro e he
            simp only [List.mem_singleton] at he
            rw [he]
            exact validPath_singleton g a) p hres
          exact absurd ⟨p, hsound⟩ h
  exact ⟨hdij, ⟨fun h => hbfs.mpr (hdij.mp h), fun h => hdij.mpr (hbfs.mp h)⟩⟩

/-- The C2 theorem exercised on the concrete topology, at the disconnected
pair `(0, 2)`. -/
theorem dijkstra_none_iff_bfs_witness :
    Wellformed gW ∧ 0 ∈ gW.nodes ∧ 2 ∈ gW.nodes ∧
    ((dijkstra_shortest_path gW 0 2 = none ↔ ¬ Reachable gW 0 2) ∧
     (dijkstra_shortest_path gW 0 2 = none ↔ find_path gW 0 2 = none)) :=
  ⟨by decide, by decide, by decide,
   @dijkstra_none_iff_bfs gW 0 2 (by decide) (by decide) (by decide)⟩
